import Mathlib

/-!
Verification of the amberio/amberblob/rimio replicated slot engine against its
natural-language specification.  The Rust source is shallowly embedded: the
SQLite-backed metadata store becomes a list of rows with executable query
functions, effectful operations return an explicit result together with a list
of store actions, byte strings are lists of naturals, and the SHA-256 digest
function is an abstract parameter `hash : List Nat → String`.
-/

namespace Amber

/-- Error kinds of the amberblob/amberio lineage (`AmberError`); message payloads
are omitted, the constructor records the kind. -/
inductive AmbErr where
  | invalidRequest
  | hashMismatch
  | partNotFound
  | internal
  | config
  deriving DecidableEq, Repr

/-- Error kinds of the rimio lineage (`RimError`); message payloads are omitted. -/
inductive RimErr where
  | invalidRequest
  | partNotFound
  | internal
  | hashMismatch
  | transport
  deriving DecidableEq, Repr

/-! ## amberblob metadata store (`amberblob-core/src/storage/metadata_store.rs`)

The `blobs` table has columns `(path, version, blob_id, size, chunks,
created_at, tombstoned_at)` with `UNIQUE (path, version)`.  We model it as a
list of rows; timestamps are naturals, the chunks JSON array is a list of
`(id, len)` pairs. -/

/-- One entry of the `chunks` JSON array (`ChunkRef`). -/
structure ChunkRefE where
  id : String
  len : Nat
  deriving DecidableEq, Repr

/-- One row of the `blobs` table (`BlobMeta` as stored). -/
structure BlobRow where
  path : String
  version : Int
  blob_id : String
  size : Nat
  chunks : List ChunkRefE
  created_at : Nat
  tombstoned_at : Option Nat
  deriving DecidableEq, Repr

/-- The per-slot `blobs` table. -/
abbrev BlobDb := List BlobRow

/-- MetadataStore.put_blob: `INSERT OR REPLACE INTO blobs ... VALUES ...` under
`UNIQUE (path, version)` — any existing row with the same `(path, version)` is
replaced, with no check against existing generations. -/
def putBlob (db : BlobDb) (m : BlobRow) : BlobDb :=
  m :: db.filter (fun r => !(r.path == m.path && r.version == m.version))

/-- MetadataStore.get_blob: `SELECT ... FROM blobs WHERE path = ?1 AND version = ?2`. -/
def getBlob (db : BlobDb) (p : String) (v : Int) : Option BlobRow :=
  db.find? (fun r => r.path == p && r.version == v)

/-- Maximum version among the matching rows, `none` when no row matches
(SQL `MAX(version)` returning NULL). -/
def maxVersionOf : BlobDb → String → Option Int
  | [], _ => none
  | r :: rest, p =>
    let m := maxVersionOf rest p
    if r.path = p then
      some (match m with
        | none => r.version
        | some v => max r.version v)
    else m

/-- MetadataStore.get_max_version: `SELECT MAX(version) FROM blobs WHERE path = ?1`,
then `unwrap_or(0)`. -/
def getMaxVersion (db : BlobDb) (p : String) : Int :=
  (maxVersionOf db p).getD 0

/-- MetadataStore.get_latest_blob: `SELECT ... FROM blobs WHERE path = ?1 AND
tombstoned_at IS NULL ORDER BY version DESC LIMIT 1` — the highest
non-tombstoned version, ignoring tombstoned rows entirely. -/
def getLatestBlob : BlobDb → String → Option BlobRow
  | [], _ => none
  | r :: rest, p =>
    let m := getLatestBlob rest p
    if r.path = p ∧ r.tombstoned_at = none then
      match m with
      | none => some r
      | some r2 => if r2.version > r.version then some r2 else some r
    else m

/-- MetadataStore.delete_blob: `UPDATE blobs SET tombstoned_at = ?1 WHERE path =
?2 AND version = ?3 AND tombstoned_at IS NULL`; returns the updated table and
whether any row was affected. -/
def deleteBlob (db : BlobDb) (p : String) (v : Int) (now : Nat) : BlobDb × Bool :=
  let affected := db.any (fun r => r.path == p && r.version == v && r.tombstoned_at == none)
  (db.map (fun r =>
      if r.path = p ∧ r.version = v ∧ r.tombstoned_at = none then
        { r with tombstoned_at := some now }
      else r),
   affected)

/-! ## amberblob server write/delete paths (`amberblob-server/src/server.rs`) -/

/-- Two's-complement wrap of an integer into the i64 range
`[-9223372036854775808, 9223372036854775807]` (`-2^63 .. 2^63 - 1`): the value
release-mode Rust produces for an overflowing i64 addition (debug mode panics
instead). -/
def wrapI64 (v : Int) : Int :=
  (v + 9223372036854775808) % 18446744073709551616 - 9223372036854775808

/-- Version chosen by `put_object`: the explicit `?version=` query value when
present (already an i64 from deserialization), otherwise
`get_max_version(path) + 1` computed in i64 arithmetic, which wraps at
`i64::MAX`. -/
def putObjectVersion (q : Option Int) (db : BlobDb) (p : String) : Int :=
  match q with
  | some v => v
  | none => wrapI64 (getMaxVersion db p + 1)

/-- The metadata effect of a successful `put_object` / `perform_2pc` commit:
`store.put_blob(&meta)` with the chosen version and `tombstoned_at: None`. -/
def putObjectApply (db : BlobDb) (p : String) (q : Option Int) (blobId : String)
    (size : Nat) (chunks : List ChunkRefE) (createdAt : Nat) : BlobDb :=
  putBlob db
    { path := p
      version := putObjectVersion q db p
      blob_id := blobId
      size := size
      chunks := chunks
      created_at := createdAt
      tombstoned_at := none }

/-- Version chosen by `delete_object`: the explicit query value when present,
otherwise `get_max_version(path)` (rejected upstream when it is `≤ 0`). -/
def deleteObjectVersion (q : Option Int) (db : BlobDb) (p : String) : Int :=
  match q with
  | some v => v
  | none => getMaxVersion db p

/-- The metadata effect of `delete_object`: tombstone the chosen version. -/
def deleteObjectApply (db : BlobDb) (p : String) (q : Option Int) (now : Nat) :
    BlobDb × Bool :=
  deleteBlob db p (deleteObjectVersion q db p) now

/-! ## Blob path normalization (`amberio-core/src/operations/init_cluster.rs`
`normalize_blob_path`; `amberio-server/src/main.rs` `normalize_scan_path` is
textually identical).  Paths are modelled as lists of characters. -/

/-- Rust `str::trim_matches('/')`: drop every leading and trailing slash. -/
def trimSlashes (l : List Char) : List Char :=
  ((l.dropWhile (fun c => c = '/')).reverse.dropWhile (fun c => c = '/')).reverse

/-- Helper for `splitSlash`: accumulates the current component in reverse. -/
def splitSlashAux : List Char → List Char → List (List Char)
  | [], acc => [acc.reverse]
  | c :: rest, acc =>
    if c = '/' then acc.reverse :: splitSlashAux rest []
    else splitSlashAux rest (c :: acc)

/-- Rust `str::split('/')` as a list of components. -/
def splitSlash (l : List Char) : List (List Char) :=
  splitSlashAux l []

/-- Component check loop of `normalize_blob_path`: fails with `InvalidRequest`
at the first empty, `.` or `..` component, otherwise collects the components. -/
def checkComponents : List (List Char) → Except AmbErr (List (List Char))
  | [] => .ok []
  | c :: rest =>
    if c = [] ∨ c = ['.'] ∨ c = ['.', '.'] then .error .invalidRequest
    else
      match checkComponents rest with
      | .error e => .error e
      | .ok cs => .ok (c :: cs)

/-- normalize_blob_path: trim slashes, reject the empty path, reject empty /
`.` / `..` components, and return the components re-joined with `/`. -/
def normalizeBlobPath (path : List Char) : Except AmbErr (List Char) :=
  let trimmed := trimSlashes path
  if trimmed = [] then .error .invalidRequest
  else
    match checkComponents (splitSlash trimmed) with
    | .error e => .error e
    | .ok cs => .ok (List.intercalate ['/'] cs)

/-! ## Two-phase commit vote collection (`amberblob-server/src/server.rs`
`perform_2pc`). -/

/-- Participant vote in the prepare phase. -/
inductive Vote where
  | yes
  | no
  deriving DecidableEq, Repr

/-- Coordinator decision. -/
inductive Decision where
  | commit
  | abort
  deriving DecidableEq, Repr

/-- The Phase-1 loop of `perform_2pc`: the local participant's vote is its real
`prepare` result, but for every remote participant the code records `Vote::Yes`
without performing any RPC (`// Remote prepare - ... For now, assume remote
nodes vote Yes`).  `trueVote` gives the vote each participant's `prepare` would
actually return. -/
def recordedVotes (localId : String) (trueVote : String → Vote)
    (participants : List String) : List (String × Vote) :=
  participants.map (fun p => (p, if p = localId then trueVote p else Vote.yes))

/-- Modelled from the spec: `TwoPhaseCommit::can_commit` (two_phase_commit.rs is
declared in amberblob-core but its source is not under src/): the coordinator
decides Commit iff every recorded vote is Yes. -/
def canCommit (votes : List (String × Vote)) : Bool :=
  votes.all (fun pv => pv.2 == Vote.yes)

/-- The decision `perform_2pc` reaches from the recorded votes. -/
def perform2pcDecision (localId : String) (trueVote : String → Vote)
    (participants : List String) : Decision :=
  if canCommit (recordedVotes localId trueVote participants) then .commit else .abort

/-- The decision the spec requires: Commit iff every participant in the
participant set actually voted Yes in a performed Prepare. -/
def specDecision (trueVote : String → Vote) (participants : List String) : Decision :=
  if participants.all (fun p => trueVote p == Vote.yes) then .commit else .abort

/-! ## rimio read path (`rimio-core/src/operations/read_blob.rs`) -/

/-- A requested inclusive byte range (`ReadByteRange`). -/
structure ReadRange where
  start : Nat
  stop : Nat
  deriving DecidableEq, Repr

/-- resolve_effective_range: default to `[0, size_bytes - 1]`, reject a
requested range unless `start ≤ end ∧ end < size_bytes`.  The `size_bytes = 0`
case of the default branch is unreachable: `run` handles empty blobs first. -/
def resolveEffectiveRange (sizeBytes : Nat) (requested : Option ReadRange) :
    Except RimErr ReadRange :=
  match requested with
  | some range =>
    if range.start > range.stop ∨ range.stop ≥ sizeBytes then .error .invalidRequest
    else .ok range
  | none => .ok { start := 0, stop := sizeBytes - 1 }

/-- The range logic of `ReadBlobOperation::run` for a body-included read: an
empty blob yields an empty body with no range (but an explicit range against it
is `InvalidRequest`); otherwise the effective range is resolved.  Returns the
`body_range` (`none` exactly for the empty-blob full read). -/
def effectiveRangeForRead (sizeBytes : Nat) (range : Option ReadRange) :
    Except RimErr (Option ReadRange) :=
  if sizeBytes = 0 then
    match range with
    | some _ => .error .invalidRequest
    | none => .ok none
  else
    match resolveEffectiveRange sizeBytes range with
    | .error e => .error e
    | .ok r => .ok (some r)

/-- resolve_part_sha256: a non-empty trimmed `x-rimio-sha256` header value is
echoed back only when it equals the digest computed over the body, else the
computed digest is returned; likewise for a caller-supplied expected sha; with
neither, the computed digest is returned. -/
def resolvePartSha256 (hash : List Nat → String) (headerSha : Option String)
    (body : List Nat) (expected : Option String) : String :=
  match headerSha with
  | some value =>
    let trimmed := value.trim
    if trimmed ≠ "" then
      let actual := hash body
      if actual = trimmed then trimmed else actual
    else
      match expected with
      | some exp =>
        let actual := hash body
        if actual = exp then exp else actual
      | none => hash body
  | none =>
    match expected with
    | some exp =>
      let actual := hash body
      if actual = exp then exp else actual
    | none => hash body

/-- part_byte_range: the inclusive byte range of `part_no` in a blob of
`size_bytes` with the given `part_size` (clamped to at least 1); out-of-range
parts are `InvalidRequest`. -/
def partByteRange (sizeBytes partSizeRaw partNo : Nat) : Except RimErr (Nat × Nat) :=
  let ps := max partSizeRaw 1
  let start := partNo * ps
  if start ≥ sizeBytes then .error .invalidRequest
  else .ok (start, min (start + ps - 1) (sizeBytes - 1))

/-- Payload of a peer part fetch: the optional `x-rimio-sha256` response header
and the body bytes. -/
structure PeerPayload where
  headerSha : Option String
  bytes : List Nat
  deriving DecidableEq, Repr

/-- One peer replica as seen by `read_part_bytes`: the outcome of a
`fetch_part_by_sha` call and of a `fetch_part_by_index` call against it
(`none` models any transport error or 404). -/
structure PeerPartE where
  byShaResult : Option PeerPayload
  byIndexResult : Option PeerPayload
  deriving DecidableEq, Repr

/-- The fields of a local `PartEntry` that drive part resolution. -/
structure PartEntryE where
  sha256 : String
  archiveUrl : Option String
  deriving DecidableEq, Repr

/-- The environment of one `read_part_bytes` call: the local part entry, the
blob meta fields it consults, and the outcome of each external fetch it could
issue.  `localResult` is the outcome of `read_local_part` (part store or
external file); `archiveResult` is the byte payload of the ranged archive get
on the chosen URL (`none` models any fetch failure). -/
structure ReadPartEnv where
  entry : Option PartEntryE
  metaArchiveUrl : Option String
  metaSizeBytes : Nat
  metaPartSize : Nat
  partNo : Nat
  localResult : Option (List Nat)
  archiveResult : Option (List Nat)
  peers : List PeerPartE
  deriving DecidableEq, Repr

/-- A write to local state performed while resolving a part: a part-store
`put_part` or a metadata `upsert_part_entry` (with its archive provenance). -/
inductive Action where
  | putPart (sha256 : String) (bytes : List Nat)
  | upsertEntry (sha256 : String) (length : Nat) (archiveUrl : Option String)
  deriving DecidableEq, Repr

/-- fetch_part_from_archive_and_store: compute the part byte range, issue the
ranged fetch, check the exact length, resolve the sha, enforce a known
expected sha, then store the bytes and upsert the entry with archive
provenance. -/
def fetchPartFromArchiveAndStore (hash : List Nat → String) (env : ReadPartEnv)
    (expectedSha : Option String) (url : String) :
    Except RimErr (List Nat) × List Action :=
  match partByteRange env.metaSizeBytes env.metaPartSize env.partNo with
  | .error e => (.error e, [])
  | .ok (rangeStart, rangeEnd) =>
    match env.archiveResult with
    | none => (.error .transport, [])
    | some bytes =>
      if bytes.length ≠ rangeEnd - rangeStart + 1 then (.error .internal, [])
      else
        let sha := resolvePartSha256 hash none bytes expectedSha
        let mismatch := match expectedSha with
          | some expected => sha != expected
          | none => false
        if mismatch then (.error .hashMismatch, [])
        else (.ok bytes, [.putPart sha bytes, .upsertEntry sha bytes.length (some url)])

/-- fetch_part_from_peers_and_store: try each peer in order — by sha when an
expected sha is known, by index otherwise — skip fetch failures and
sha-mismatching payloads, store and index the first acceptable payload, and
fail with `PartNotFound` when every peer is exhausted. -/
def fetchPartFromPeersAndStore (hash : List Nat → String) (peers : List PeerPartE)
    (expectedSha : Option String) : Except RimErr (List Nat) × List Action :=
  match peers with
  | [] => (.error .partNotFound, [])
  | peer :: rest =>
    let payload := match expectedSha with
      | some _ => peer.byShaResult
      | none => peer.byIndexResult
    match payload with
    | none => fetchPartFromPeersAndStore hash rest expectedSha
    | some pl =>
      let sha := resolvePartSha256 hash pl.headerSha pl.bytes expectedSha
      let mismatch := match expectedSha with
        | some expected => sha != expected
        | none => false
      if mismatch then fetchPartFromPeersAndStore hash rest expectedSha
      else (.ok pl.bytes, [.putPart sha pl.bytes, .upsertEntry sha pl.bytes.length none])

/-- read_part_bytes: with a local part entry, try the local part/file, then the
archive (the entry's URL, else the meta's) with the entry's sha as expected,
then the peers by sha; without an entry, try the meta's archive URL, then the
peers by index, with no expected sha.  Archive errors are logged and fall
through to the peers. -/
def readPartBytes (hash : List Nat → String) (env : ReadPartEnv) :
    Except RimErr (List Nat) × List Action :=
  match env.entry with
  | some en =>
    match env.localResult with
    | some bytes => (.ok bytes, [])
    | none =>
      match en.archiveUrl.or env.metaArchiveUrl with
      | some url =>
        let ar := fetchPartFromArchiveAndStore hash env (some en.sha256) url
        match ar.1 with
        | .ok bytes => (.ok bytes, ar.2)
        | .error _ =>
          let pr := fetchPartFromPeersAndStore hash env.peers (some en.sha256)
          (pr.1, ar.2 ++ pr.2)
      | none => fetchPartFromPeersAndStore hash env.peers (some en.sha256)
  | none =>
    match env.metaArchiveUrl with
    | some url =>
      let ar := fetchPartFromArchiveAndStore hash env none url
      match ar.1 with
      | .ok bytes => (.ok bytes, ar.2)
      | .error _ =>
        let pr := fetchPartFromPeersAndStore hash env.peers none
        (pr.1, ar.2 ++ pr.2)
    | none => fetchPartFromPeersAndStore hash env.peers none

/-! ### Specification-side part resolution (for the refinement claim about
source ordering).  Following the spec's words: the sources for a required part
are the local entry/file, then a ranged archive fetch when an archive URL is
known, then each peer replica in turn; the part resolves to the first source
that succeeds, and the read fails with `PartNotFound` iff all sources fail. -/

/-- A candidate source for one part. -/
inductive PartSource where
  | localPart
  | archive (url : String)
  | peer (p : PeerPartE)
  deriving DecidableEq, Repr

/-- The expected sha for the part: known exactly when a local entry exists. -/
def expectedShaOf (env : ReadPartEnv) : Option String :=
  env.entry.map (fun en => en.sha256)

/-- The archive URL consulted for the part: the entry's, else the meta's. -/
def chosenArchiveUrl (env : ReadPartEnv) : Option String :=
  match env.entry with
  | some en => en.archiveUrl.or env.metaArchiveUrl
  | none => env.metaArchiveUrl

/-- The ordered candidate sources of the spec: local (when an entry exists),
archive (when a URL is known), then the peers in replica order. -/
def candidateSources (env : ReadPartEnv) : List PartSource :=
  (match env.entry with
    | some _ => [PartSource.localPart]
    | none => []) ++
  (match chosenArchiveUrl env with
    | some url => [PartSource.archive url]
    | none => []) ++
  env.peers.map PartSource.peer

/-- Whether one peer yields acceptable bytes: the fetch (by sha when an
expected sha is known, by index otherwise) succeeds and, when an expected sha
is known, the digest of the payload matches it. -/
def peerBytes (hash : List Nat → String) (expectedSha : Option String)
    (p : PeerPartE) : Option (List Nat) :=
  let payload := match expectedSha with
    | some _ => p.byShaResult
    | none => p.byIndexResult
  payload.bind (fun pl =>
    match expectedSha with
    | some expected => if hash pl.bytes = expected then some pl.bytes else none
    | none => some pl.bytes)

/-- The bytes of the first peer that yields acceptable bytes. -/
def firstPeerBytes (hash : List Nat → String) (exp : Option String) :
    List PeerPartE → Option (List Nat)
  | [] => none
  | p :: rest =>
    match peerBytes hash exp p with
    | some b => some b
    | none => firstPeerBytes hash exp rest

/-- Whether the archive yields acceptable bytes: the part byte range is valid,
the ranged fetch succeeds with exactly the expected length, and a known
expected sha matches the digest of the payload. -/
def archiveBytes (hash : List Nat → String) (env : ReadPartEnv)
    (expectedSha : Option String) : Option (List Nat) :=
  match partByteRange env.metaSizeBytes env.metaPartSize env.partNo with
  | .error _ => none
  | .ok (rangeStart, rangeEnd) =>
    env.archiveResult.bind (fun bytes =>
      if bytes.length = rangeEnd - rangeStart + 1 then
        match expectedSha with
        | some expected => if hash bytes = expected then some bytes else none
        | none => some bytes
      else none)

/-- The bytes a single candidate source yields, when it succeeds. -/
def sourceBytes (hash : List Nat → String) (env : ReadPartEnv) :
    PartSource → Option (List Nat)
  | .localPart =>
    match env.entry with
    | some _ => env.localResult
    | none => none
  | .archive _ => archiveBytes hash env (expectedShaOf env)
  | .peer p => peerBytes hash (expectedShaOf env) p

/-- The bytes of the first succeeding source in the candidate list. -/
def firstSourceBytes (hash : List Nat → String) (env : ReadPartEnv) :
    List PartSource → Option (List Nat)
  | [] => none
  | s :: rest =>
    match sourceBytes hash env s with
    | some b => some b
    | none => firstSourceBytes hash env rest

/-! ## Body assembly of `ReadBlobOperation::run` (lines 107-158): iterate the
parts covering the effective range, slice the first and last parts to the
range endpoints, copy inner parts whole, and fail with an internal error when
a slice bound is inconsistent with the part's length. -/

/-- The loop body of the assembly, iterating `part_no` from `j` for `k` more
parts; `first` and `last` are the part indices of the range endpoints. -/
def assembleFrom (ps s e first last : Nat) (parts : Nat → List Nat) :
    Nat → Nat → Except RimErr (List Nat)
  | _, 0 => .ok []
  | j, k + 1 =>
    let bytes := parts j
    let partStart := j * ps
    let sliceStart := if j = first then s - partStart else 0
    let sliceEnd := if j = last then (e - partStart) + 1 else bytes.length
    if sliceStart > sliceEnd ∨ sliceEnd > bytes.length then .error .internal
    else
      match assembleFrom ps s e first last parts (j + 1) k with
      | .error er => .error er
      | .ok rest => .ok ((bytes.drop sliceStart).take (sliceEnd - sliceStart) ++ rest)

/-- Body assembly for the validated effective range `[s, e]`: parts
`s / part_size ..= e / part_size` are read and sliced in order. -/
def assembleBody (partSizeRaw s e : Nat) (parts : Nat → List Nat) :
    Except RimErr (List Nat) :=
  let ps := max partSizeRaw 1
  let first := s / ps
  let last := e / ps
  assembleFrom ps s e first last parts first (last - first + 1)

/-- Number of parts of a blob: `size_bytes.div_ceil(part_size)`. -/
def partCount (sizeBytes ps : Nat) : Nat :=
  (sizeBytes + ps - 1) / ps

/-- Expected length of part `i`: `part_size`, shortened for the final part. -/
def partLen (sizeBytes ps i : Nat) : Nat :=
  min ps (sizeBytes - i * ps)

/-- The full blob reconstructed from its parts in order. -/
def fullBody (sizeBytes ps : Nat) (parts : Nat → List Nat) : List Nat :=
  ((List.range (partCount sizeBytes ps)).map parts).flatten

/-! ## amberblob internal part put (`amberblob-core/src/operations/internal_part.rs`
`InternalPartOperation::run_put`). -/

/-- Request of `run_put`. -/
structure InternalPutPartRequest where
  path : String
  sha256 : String
  body : List Nat
  offset : Nat
  length : Option Nat
  deriving DecidableEq, Repr

/-- Store effects of `run_put`: the part-store write and the part-entry upsert. -/
inductive PutPartAction where
  | putPart (sha256 : String) (bytes : List Nat)
  | upsertPartRef (name sha256 : String) (offset length : Nat)
  deriving DecidableEq, Repr

/-- run_put: when the digest computed over the body differs from the supplied
`sha256`, fail with `InvalidRequest` ("part sha256 mismatch") before touching
any store; otherwise store the part and upsert a `PartRef` whose length
defaults to the stored body's length.  `partAlreadyStored` is the `reused`
flag of `PartStore::put_part`, modelled from the spec (the part store source
is not under src/): true iff the final path already exists with a matching
hash. -/
def runPut (hash : List Nat → String) (partAlreadyStored : Bool)
    (req : InternalPutPartRequest) :
    Except AmbErr (Bool × String) × List PutPartAction :=
  if hash req.body ≠ req.sha256 then (.error .invalidRequest, [])
  else
    let length := req.length.getD req.body.length
    (.ok (partAlreadyStored, req.sha256),
     [.putPart req.sha256 req.body,
      .upsertPartRef ("part." ++ req.sha256) req.sha256 req.offset length])

/-! ## Concrete instances used by witnesses -/

/-- A concrete digest function for witness evaluation (the theorems hold for
every `hash`). -/
def hashW : List Nat → String :=
  fun b => if b = [1] then "E" else "X"

/-- A concrete local part entry: known sha `"E"`, archive URL `"u"`. -/
def enW : PartEntryE :=
  { sha256 := "E", archiveUrl := some "u" }

/-- A concrete read-part environment: local read fails, the archive returns
bytes of the right length but the wrong digest, the first peer returns
mismatching bytes, the second returns bytes matching the entry's sha. -/
def envW : ReadPartEnv :=
  { entry := some enW
    metaArchiveUrl := none
    metaSizeBytes := 4
    metaPartSize := 4
    partNo := 0
    localResult := none
    archiveResult := some [9, 9, 9, 9]
    peers := [{ byShaResult := some { headerSha := none, bytes := [5] }, byIndexResult := none },
              { byShaResult := some { headerSha := none, bytes := [1] }, byIndexResult := none }] }

/-! ## Shared lemmas -/

/-- resolve_part_sha256 always returns the digest computed over the body: the
header or expected value is only echoed back when it already equals it. -/
theorem resolvePartSha256_eq_hash (hash : List Nat → String)
    (headerSha : Option String) (body : List Nat) (expected : Option String) :
    resolvePartSha256 hash headerSha body expected = hash body := by
  unfold resolvePartSha256
  cases headerSha with
  | none =>
    cases expected with
    | none => rfl
    | some exp =>
      by_cases h : hash body = exp
      · simp [h]
      · simp [h]
  | some v =>
    by_cases ht : v.trim = ""
    · cases expected with
      | none => simp [ht]
      | some exp =>
        by_cases h : hash body = exp
        · simp [ht, h]
        · simp [ht, h]
    · by_cases h : hash body = v.trim
      · simp [ht, h]
      · simp [ht, h]

/-- Every version stored for a path is bounded by `maxVersionOf`. -/
theorem version_le_maxVersionOf (db : BlobDb) (p : String) (r : BlobRow)
    (hmem : r ∈ db) (hpath : r.path = p) :
    ∃ m, maxVersionOf db p = some m ∧ r.version ≤ m := by
  induction db with
  | nil => cases hmem
  | cons row rest ih =>
    rcases List.mem_cons.mp hmem with heq | hmem2
    · subst heq
      simp only [maxVersionOf, hpath, if_pos rfl]
      cases hrec : maxVersionOf rest p with
      | none => exact ⟨r.version, rfl, le_refl _⟩
      | some v => exact ⟨max r.version v, rfl, le_max_left _ _⟩
    · obtain ⟨m, hm, hle⟩ := ih hmem2
      simp only [maxVersionOf]
      by_cases hrp : row.path = p
      · simp only [if_pos hrp, hm]
        exact ⟨max row.version m, rfl, le_trans hle (le_max_right _ _)⟩
      · simp only [if_neg hrp]
        exact ⟨m, hm, hle⟩

/-! ## C1 -/

/-- Inside the i64 range the wrap is the identity. -/
theorem wrapI64_eq_of_bounds (v : Int) (h1 : -9223372036854775808 ≤ v)
    (h2 : v < 9223372036854775808) : wrapI64 v = v := by
  unfold wrapI64
  have h3 : (0 : Int) ≤ v + 9223372036854775808 := by omega
  have h4 : v + 9223372036854775808 < 18446744073709551616 := by omega
  rw [Int.emod_eq_of_lt h3 h4]
  omega

/-- At the i64 ceiling the addition wraps to `i64::MIN`: a head stored at
version `i64::MAX` (reachable through the unchecked explicit `?version=`
path) makes the next default version wrap instead of increasing. -/
theorem wrapI64_overflow :
    wrapI64 (9223372036854775807 + 1) = -9223372036854775808 := by decide

/-- C1 (amended): only the default write path is monotone, and only below the
i64 ceiling.  When `put_object` receives no explicit version it chooses
`get_max_version(path) + 1` in i64 arithmetic; provided the stored maximum is
below `i64::MAX` (at `i64::MAX` the addition wraps to `i64::MIN`, or panics in
debug builds) the chosen version is strictly greater than the version of every
row stored for that path.  An explicit version (and `put_blob` itself, an
unconditional `INSERT OR REPLACE`) is applied without any monotonicity
check. -/
theorem putObject_default_version_gt_all (db : BlobDb) (p : String) (r : BlobRow)
    (hmem : r ∈ db) (hpath : r.path = p)
    (hlow : -9223372036854775808 ≤ r.version)
    (hmax : getMaxVersion db p < 9223372036854775807) :
    r.version < putObjectVersion none db p := by
  obtain ⟨m, hm, hle⟩ := version_le_maxVersionOf db p r hmem hpath
  have hgm : getMaxVersion db p = m := by simp [getMaxVersion, hm]
  rw [hgm] at hmax
  have hw : wrapI64 (m + 1) = m + 1 :=
    wrapI64_eq_of_bounds (m + 1) (by omega) (by omega)
  simp only [putObjectVersion, hgm, hw]
  omega

/-- Witness for the amended C1 theorem at a concrete store. -/
theorem putObject_default_version_gt_all_witness :
    (⟨"p", 5, "b1", 3, [], 0, none⟩ : BlobRow).version
      < putObjectVersion none [⟨"p", 5, "b1", 3, [], 0, none⟩] "p" :=
  putObject_default_version_gt_all [⟨"p", 5, "b1", 3, [], 0, none⟩] "p"
    ⟨"p", 5, "b1", 3, [], 0, none⟩ (by decide) (by decide) (by decide) (by decide)

/-- C1 counterexample: after a head at generation 5 is durably stored for
`"p"`, a `PUT` with explicit `?version=1` (`put_object` → `perform_2pc` →
`put_blob`) stores a head at generation `1 ≤ 5` for the same path. -/
theorem putObject_explicit_version_not_monotone :
    (getBlob (putObjectApply [⟨"p", 5, "b1", 3, [], 0, none⟩] "p" (some 1) "b2" 3 [] 1)
        "p" 1).isSome = true
    ∧ (getBlob [⟨"p", 5, "b1", 3, [], 0, none⟩] "p" 5).isSome = true
    ∧ (1 : Int) ≤ 5 := by
  decide

/-! ## C2 -/

/-- C2 (amended): `delete_blob` tombstones a single `(path, version)` row and
`get_latest_blob` returns the highest surviving non-tombstoned version, so
deleting the current version makes reads fall back to the next older live
version; a read returns no content iff every stored version of the path is
tombstoned. -/
theorem getLatestBlob_none_iff (db : BlobDb) (p : String) :
    getLatestBlob db p = none ↔
      ∀ r ∈ db, r.path = p → r.tombstoned_at ≠ none := by
  induction db with
  | nil => simp [getLatestBlob]
  | cons row rest ih =>
    simp only [getLatestBlob]
    by_cases h : row.path = p ∧ row.tombstoned_at = none
    · simp only [if_pos h]
      constructor
      · intro hnone
        exfalso
        cases hrec : getLatestBlob rest p with
        | none => simp [hrec] at hnone
        | some r2 =>
          rw [hrec] at hnone
          by_cases hv : r2.version > row.version
          · simp [hv] at hnone
          · simp [hv] at hnone
      · intro hall
        exact absurd h.2 (hall row (List.mem_cons_self _ _) h.1)
    · simp only [if_neg h]
      rw [ih]
      constructor
      · intro hall r hmem hpath
        rcases List.mem_cons.mp hmem with heq | hmem2
        · subst heq
          intro htomb
          exact h ⟨hpath, htomb⟩
        · exact hall r hmem2 hpath
      · intro hall r hmem hpath
        exact hall r (List.mem_cons_of_mem _ hmem) hpath

/-- Witness for the amended C2 theorem: a store whose only row for `"p"` is
tombstoned reads as absent. -/
theorem getLatestBlob_none_iff_witness :
    getLatestBlob [⟨"p", 1, "b1", 3, [], 0, some 7⟩] "p" = none :=
  (getLatestBlob_none_iff [⟨"p", 1, "b1", 3, [], 0, some 7⟩] "p").mpr (by decide)

/-- C2 counterexample: put `"p"` twice (generations 1 and 2), then delete with
no explicit version — which tombstones generation 2, the current head.  The
next read does not return nothing until a generation above 2 appears: it falls
back to the generation-1 content. -/
theorem delete_current_falls_back_to_older :
    ((getLatestBlob
        (deleteObjectApply
          (putObjectApply (putObjectApply [] "p" none "b1" 3 [] 0) "p" none "b2" 3 [] 0)
          "p" none 7).1 "p").map (fun r => r.version) = some 1)
    ∧ (deleteObjectApply
        (putObjectApply (putObjectApply [] "p" none "b1" 3 [] 0) "p" none "b2" 3 [] 0)
        "p" none 7).2 = true
    ∧ (1 : Int) < 2 := by
  decide

/-! ## C3 -/

/-- C3 (code bug, evaluated at the failing input): with participants
`["a", "b"]` and the coordinator local on `"a"`, a remote participant `"b"`
whose `prepare` would vote No is never asked — `perform_2pc` records
`Vote::Yes` for it without an RPC and decides Commit, whereas the specified
protocol (Commit iff every performed Prepare voted Yes) must Abort. -/
theorem perform2pc_skips_remote_prepare :
    perform2pcDecision "a" (fun p => if p = "b" then Vote.no else Vote.yes)
        ["a", "b"] = Decision.commit
    ∧ (fun p => if p = "b" then Vote.no else Vote.yes) "b" = Vote.no
    ∧ specDecision (fun p => if p = "b" then Vote.no else Vote.yes)
        ["a", "b"] = Decision.abort := by
  decide

/-! ## C4 -/

/-- C4: for a body-included read, the default effective range is
`[0, size_bytes - 1]`; an explicit range is accepted iff
`start ≤ end ∧ end < size_bytes` and otherwise fails with `InvalidRequest`;
in particular every explicit range against an empty blob is rejected. -/
theorem effectiveRangeForRead_spec (sizeBytes s e : Nat) :
    (0 < sizeBytes →
      effectiveRangeForRead sizeBytes none = .ok (some ⟨0, sizeBytes - 1⟩))
    ∧ (s ≤ e ∧ e < sizeBytes →
      effectiveRangeForRead sizeBytes (some ⟨s, e⟩) = .ok (some ⟨s, e⟩))
    ∧ (¬(s ≤ e ∧ e < sizeBytes) →
      effectiveRangeForRead sizeBytes (some ⟨s, e⟩) = .error .invalidRequest)
    ∧ (sizeBytes = 0 →
      effectiveRangeForRead sizeBytes (some ⟨s, e⟩) = .error .invalidRequest) := by
  refine ⟨?_, ?_, ?_, ?_⟩
  · intro hpos
    unfold effectiveRangeForRead resolveEffectiveRange
    simp [Nat.pos_iff_ne_zero.mp hpos]
  · rintro ⟨hse, hes⟩
    unfold effectiveRangeForRead resolveEffectiveRange
    have hsz : sizeBytes ≠ 0 := by omega
    simp only [if_neg hsz]
    have hcond : ¬(s > e ∨ e ≥ sizeBytes) := by omega
    simp [hcond]
  · intro hbad
    unfold effectiveRangeForRead resolveEffectiveRange
    by_cases hsz : sizeBytes = 0
    · simp [hsz]
    · simp only [if_neg hsz]
      have hcond : s > e ∨ e ≥ sizeBytes := by omega
      simp [hcond]
  · intro hsz
    unfold effectiveRangeForRead
    simp [hsz]

/-- Witness for C4 at concrete inputs. -/
theorem effectiveRangeForRead_spec_witness :
    effectiveRangeForRead 10 none = .ok (some ⟨0, 9⟩)
    ∧ effectiveRangeForRead 10 (some ⟨2, 6⟩) = .ok (some ⟨2, 6⟩)
    ∧ effectiveRangeForRead 10 (some ⟨7, 6⟩) = .error .invalidRequest
    ∧ effectiveRangeForRead 0 (some ⟨0, 0⟩) = .error .invalidRequest :=
  ⟨(effectiveRangeForRead_spec 10 2 6).1 (by decide),
   (effectiveRangeForRead_spec 10 2 6).2.1 (by decide),
   (effectiveRangeForRead_spec 10 7 6).2.2.1 (by decide),
   (effectiveRangeForRead_spec 0 0 0).2.2.2 (by decide)⟩

/-! ## C9 -/

/-- When every component is non-empty and none is `.` or `..`, the component
check collects all components. -/
theorem checkComponents_ok (cs : List (List Char))
    (h : ∀ c ∈ cs, ¬(c = [] ∨ c = ['.'] ∨ c = ['.', '.'])) :
    checkComponents cs = .ok cs := by
  induction cs with
  | nil => rfl
  | cons c rest ih =>
    have hc := h c (List.mem_cons_self _ _)
    have hrest := ih (fun x hx => h x (List.mem_cons_of_mem _ hx))
    simp only [checkComponents, if_neg hc, hrest]

/-- When some component is empty, `.` or `..`, the component check fails with
`InvalidRequest`. -/
theorem checkComponents_err (cs : List (List Char))
    (h : ∃ c ∈ cs, c = [] ∨ c = ['.'] ∨ c = ['.', '.']) :
    checkComponents cs = .error .invalidRequest := by
  induction cs with
  | nil => simp at h
  | cons c rest ih =>
    by_cases hc : c = [] ∨ c = ['.'] ∨ c = ['.', '.']
    · simp only [checkComponents, if_pos hc]
    · simp only [checkComponents, if_neg hc]
      obtain ⟨x, hx, hbad⟩ := h
      rcases List.mem_cons.mp hx with heq | hmem
      · exact absurd (heq ▸ hbad) hc
      · rw [ih ⟨x, hmem, hbad⟩]

/-- C9: blob-path normalization strips all leading and trailing slashes and
succeeds — returning the remaining components joined by `/` — iff the trimmed
path is non-empty and no component is empty, `.` or `..`; otherwise it fails
with `InvalidRequest`. -/
theorem normalizeBlobPath_spec (p : List Char) :
    ((trimSlashes p ≠ [] ∧
        ∀ c ∈ splitSlash (trimSlashes p), ¬(c = [] ∨ c = ['.'] ∨ c = ['.', '.'])) →
      normalizeBlobPath p = .ok (List.intercalate ['/'] (splitSlash (trimSlashes p))))
    ∧ ((trimSlashes p = [] ∨
        ∃ c ∈ splitSlash (trimSlashes p), (c = [] ∨ c = ['.'] ∨ c = ['.', '.'])) →
      normalizeBlobPath p = .error .invalidRequest) := by
  constructor
  · rintro ⟨hne, hall⟩
    unfold normalizeBlobPath
    simp only [if_neg hne, checkComponents_ok _ hall]
  · intro hbad
    unfold normalizeBlobPath
    rcases hbad with hempty | hcomp
    · simp [hempty]
    · by_cases hne : trimSlashes p = []
      · simp [hne]
      · simp only [if_neg hne, checkComponents_err _ hcomp]

/-! ## Lemmas on the part-fetch functions -/

/-- Full characterization of the archive fetch: it returns exactly the bytes
the spec-side archive source yields, storing them under their computed digest
with archive provenance, and otherwise fails with no store action. -/
theorem fetchArchive_eq (hash : List Nat → String) (env : ReadPartEnv)
    (exp : Option String) (url : String) :
    (∀ b, archiveBytes hash env exp = some b →
      fetchPartFromArchiveAndStore hash env exp url =
        (.ok b, [Action.putPart (hash b) b, Action.upsertEntry (hash b) b.length (some url)])
      ∧ ∀ x, exp = some x → hash b = x)
    ∧ (archiveBytes hash env exp = none →
      ∃ e, fetchPartFromArchiveAndStore hash env exp url = (.error e, [])) := by
  unfold fetchPartFromArchiveAndStore archiveBytes
  cases hr : partByteRange env.metaSizeBytes env.metaPartSize env.partNo with
  | error e2 => exact ⟨by simp, fun _ => ⟨e2, rfl⟩⟩
  | ok rse =>
    obtain ⟨rs, re⟩ := rse
    dsimp only
    cases harch : env.archiveResult with
    | none => exact ⟨by simp, fun _ => ⟨.transport, rfl⟩⟩
    | some bytes =>
      simp only [Option.some_bind]
      by_cases hlen : bytes.length = re - rs + 1
      · rw [if_neg (by omega : ¬ bytes.length ≠ re - rs + 1), if_pos hlen]
        cases exp with
        | none =>
          constructor
          · rintro b hb
            cases hb
            simp [resolvePartSha256_eq_hash]
          · intro hnone
            simp at hnone
        | some x =>
          by_cases hx : hash bytes = x
          · subst hx
            constructor
            · rintro b hb
              simp only [if_pos rfl] at hb
              cases hb
              simp [resolvePartSha256_eq_hash]
            · intro hnone
              simp at hnone
          · constructor
            · rintro b hb
              dsimp only at hb
              rw [if_neg hx] at hb
              cases hb
            · intro hnone
              refine ⟨.hashMismatch, ?_⟩
              simp [resolvePartSha256_eq_hash, hx]
      · rw [if_pos (by omega : bytes.length ≠ re - rs + 1), if_neg hlen]
        exact ⟨by simp, fun _ => ⟨.internal, rfl⟩⟩

/-- Full characterization of the peer loop: it returns exactly the bytes of
the first acceptable peer, storing them under their computed digest with no
archive provenance, and fails with `PartNotFound` and no store action when
every peer fails. -/
theorem fetchPeers_eq (hash : List Nat → String) (exp : Option String)
    (peers : List PeerPartE) :
    (∀ b, firstPeerBytes hash exp peers = some b →
      fetchPartFromPeersAndStore hash peers exp =
        (.ok b, [Action.putPart (hash b) b, Action.upsertEntry (hash b) b.length none])
      ∧ ∀ x, exp = some x → hash b = x)
    ∧ (firstPeerBytes hash exp peers = none →
      fetchPartFromPeersAndStore hash peers exp = (.error .partNotFound, [])) := by
  induction peers with
  | nil => exact ⟨by simp [firstPeerBytes], fun _ => rfl⟩
  | cons p rest ih =>
    unfold fetchPartFromPeersAndStore firstPeerBytes peerBytes
    cases exp with
    | none =>
      cases hpay : p.byIndexResult with
      | none => simpa using ih
      | some pl =>
        simp only [Option.some_bind]
        constructor
        · rintro b hb
          cases hb
          simp [resolvePartSha256_eq_hash]
        · intro hnone
          simp at hnone
    | some x =>
      cases hpay : p.byShaResult with
      | none => simpa using ih
      | some pl =>
        simp only [Option.some_bind]
        by_cases hx : hash pl.bytes = x
        · subst hx
          constructor
          · rintro b hb
            simp only [if_pos rfl] at hb
            cases hb
            simp [resolvePartSha256_eq_hash]
          · intro hnone
            simp at hnone
        · rw [if_neg hx]
          have hskip : (resolvePartSha256 hash pl.headerSha pl.bytes (some x) != x) = true := by
            simp [resolvePartSha256_eq_hash, hx]
          rw [if_pos hskip]
          exact ih

/-- Scanning the peer candidates equals the direct peer scan. -/
theorem firstSourceBytes_map_peer (hash : List Nat → String) (env : ReadPartEnv)
    (peers : List PeerPartE) :
    firstSourceBytes hash env (peers.map PartSource.peer) =
      firstPeerBytes hash (expectedShaOf env) peers := by
  induction peers with
  | nil => rfl
  | cons p rest ih =>
    simp only [List.map_cons, firstSourceBytes, sourceBytes, firstPeerBytes, ih]


/-- Witness for C9: `"//a/b/"` normalizes to `"a/b"`, while `"a//b"`,
`"a/./b"` and `"/"` are rejected with `InvalidRequest`. -/
theorem normalizeBlobPath_spec_witness :
    normalizeBlobPath ['/', '/', 'a', '/', 'b', '/'] = .ok ['a', '/', 'b']
    ∧ normalizeBlobPath ['a', '/', '/', 'b'] = .error .invalidRequest
    ∧ normalizeBlobPath ['a', '/', '.', '/', 'b'] = .error .invalidRequest
    ∧ normalizeBlobPath ['/'] = .error .invalidRequest :=
  ⟨(normalizeBlobPath_spec ['/', '/', 'a', '/', 'b', '/']).1 (by decide),
   (normalizeBlobPath_spec ['a', '/', '/', 'b']).2 (by decide),
   (normalizeBlobPath_spec ['a', '/', '.', '/', 'b']).2 (by decide),
   (normalizeBlobPath_spec ['/']).2 (by decide)⟩

/-- Case analysis of `read_part_bytes`: it either performs no store action, or
stores exactly one payload — returned as the result — under its computed
digest, a payload whose digest matches the expected sha when one is known. -/
theorem readPartBytes_cases (hash : List Nat → String) (env : ReadPartEnv) :
    (readPartBytes hash env).2 = []
    ∨ ∃ b u, (readPartBytes hash env).1 = .ok b
        ∧ (readPartBytes hash env).2 =
            [Action.putPart (hash b) b, Action.upsertEntry (hash b) b.length u]
        ∧ ∀ x, expectedShaOf env = some x → hash b = x := by
  cases hent : env.entry with
  | some en =>
    have hexp : expectedShaOf env = some en.sha256 := by simp [expectedShaOf, hent]
    cases hloc : env.localResult with
    | some bytes =>
      left
      simp [readPartBytes, hent, hloc]
    | none =>
      cases hurl : en.archiveUrl.or env.metaArchiveUrl with
      | some url =>
        cases har : archiveBytes hash env (some en.sha256) with
        | some b2 =>
          obtain ⟨hfe, hxs⟩ := (fetchArchive_eq hash env (some en.sha256) url).1 b2 har
          right
          refine ⟨b2, some url, ?_, ?_, ?_⟩
          · simp [readPartBytes, hent, hloc, hurl, hfe]
          · simp [readPartBytes, hent, hloc, hurl, hfe]
          · intro x hx
            rw [hexp] at hx
            cases hx
            exact hxs _ rfl
        | none =>
          obtain ⟨e, hfe⟩ := (fetchArchive_eq hash env (some en.sha256) url).2 har
          cases hfp : firstPeerBytes hash (some en.sha256) env.peers with
          | some b2 =>
            obtain ⟨hpe, hxs⟩ := (fetchPeers_eq hash (some en.sha256) env.peers).1 b2 hfp
            right
            refine ⟨b2, none, ?_, ?_, ?_⟩
            · simp [readPartBytes, hent, hloc, hurl, hfe, hpe]
            · simp [readPartBytes, hent, hloc, hurl, hfe, hpe]
            · intro x hx
              rw [hexp] at hx
              cases hx
              exact hxs _ rfl
          | none =>
            have hpe := (fetchPeers_eq hash (some en.sha256) env.peers).2 hfp
            left
            simp [readPartBytes, hent, hloc, hurl, hfe, hpe]
      | none =>
        cases hfp : firstPeerBytes hash (some en.sha256) env.peers with
        | some b2 =>
          obtain ⟨hpe, hxs⟩ := (fetchPeers_eq hash (some en.sha256) env.peers).1 b2 hfp
          right
          refine ⟨b2, none, ?_, ?_, ?_⟩
          · simp [readPartBytes, hent, hloc, hurl, hpe]
          · simp [readPartBytes, hent, hloc, hurl, hpe]
          · intro x hx
            rw [hexp] at hx
            cases hx
            exact hxs _ rfl
        | none =>
          have hpe := (fetchPeers_eq hash (some en.sha256) env.peers).2 hfp
          left
          simp [readPartBytes, hent, hloc, hurl, hpe]
  | none =>
    have hexp : expectedShaOf env = none := by simp [expectedShaOf, hent]
    cases hurl : env.metaArchiveUrl with
    | some url =>
      cases har : archiveBytes hash env none with
      | some b2 =>
        obtain ⟨hfe, _⟩ := (fetchArchive_eq hash env none url).1 b2 har
        right
        refine ⟨b2, some url, ?_, ?_, ?_⟩
        · simp [readPartBytes, hent, hurl, hfe]
        · simp [readPartBytes, hent, hurl, hfe]
        · intro x hx
          rw [hexp] at hx
          cases hx
      | none =>
        obtain ⟨e, hfe⟩ := (fetchArchive_eq hash env none url).2 har
        cases hfp : firstPeerBytes hash none env.peers with
        | some b2 =>
          obtain ⟨hpe, _⟩ := (fetchPeers_eq hash none env.peers).1 b2 hfp
          right
          refine ⟨b2, none, ?_, ?_, ?_⟩
          · simp [readPartBytes, hent, hurl, hfe, hpe]
          · simp [readPartBytes, hent, hurl, hfe, hpe]
          · intro x hx
            rw [hexp] at hx
            cases hx
        | none =>
          have hpe := (fetchPeers_eq hash none env.peers).2 hfp
          left
          simp [readPartBytes, hent, hurl, hfe, hpe]
    | none =>
      cases hfp : firstPeerBytes hash none env.peers with
      | some b2 =>
        obtain ⟨hpe, _⟩ := (fetchPeers_eq hash none env.peers).1 b2 hfp
        right
        refine ⟨b2, none, ?_, ?_, ?_⟩
        · simp [readPartBytes, hent, hurl, hpe]
        · simp [readPartBytes, hent, hurl, hpe]
        · intro x hx
          rw [hexp] at hx
          cases hx
      | none =>
        have hpe := (fetchPeers_eq hash none env.peers).2 hfp
        left
        simp [readPartBytes, hent, hurl, hpe]

/-- A successful `read_part_bytes` that could not have been served locally
(no entry, or a failed local read) stores and indexes exactly the returned
bytes under their computed digest. -/
theorem readPartBytes_ok_store (hash : List Nat → String) (env : ReadPartEnv)
    (b : List Nat) (hb : (readPartBytes hash env).1 = .ok b)
    (hnl : env.entry = none ∨ env.localResult = none) :
    ∃ u, (readPartBytes hash env).2 =
      [Action.putPart (hash b) b, Action.upsertEntry (hash b) b.length u] := by
  cases hent : env.entry with
  | some en =>
    have hloc : env.localResult = none := by
      rcases hnl with h | h
      · rw [hent] at h
        cases h
      · exact h
    cases hurl : en.archiveUrl.or env.metaArchiveUrl with
    | some url =>
      cases har : archiveBytes hash env (some en.sha256) with
      | some b2 =>
        obtain ⟨hfe, _⟩ := (fetchArchive_eq hash env (some en.sha256) url).1 b2 har
        have h1 : (readPartBytes hash env).1 = .ok b2 := by
          simp [readPartBytes, hent, hloc, hurl, hfe]
        have hbb : b2 = b := Except.ok.inj (h1.symm.trans hb)
        subst hbb
        exact ⟨some url, by simp [readPartBytes, hent, hloc, hurl, hfe]⟩
      | none =>
        obtain ⟨e, hfe⟩ := (fetchArchive_eq hash env (some en.sha256) url).2 har
        cases hfp : firstPeerBytes hash (some en.sha256) env.peers with
        | some b2 =>
          obtain ⟨hpe, _⟩ := (fetchPeers_eq hash (some en.sha256) env.peers).1 b2 hfp
          have h1 : (readPartBytes hash env).1 = .ok b2 := by
            simp [readPartBytes, hent, hloc, hurl, hfe, hpe]
          have hbb : b2 = b := Except.ok.inj (h1.symm.trans hb)
          subst hbb
          exact ⟨none, by simp [readPartBytes, hent, hloc, hurl, hfe, hpe]⟩
        | none =>
          have hpe := (fetchPeers_eq hash (some en.sha256) env.peers).2 hfp
          have h1 : (readPartBytes hash env).1 = .error .partNotFound := by
            simp [readPartBytes, hent, hloc, hurl, hfe, hpe]
          rw [h1] at hb
          cases hb
    | none =>
      cases hfp : firstPeerBytes hash (some en.sha256) env.peers with
      | some b2 =>
        obtain ⟨hpe, _⟩ := (fetchPeers_eq hash (some en.sha256) env.peers).1 b2 hfp
        have h1 : (readPartBytes hash env).1 = .ok b2 := by
          simp [readPartBytes, hent, hloc, hurl, hpe]
        have hbb : b2 = b := Except.ok.inj (h1.symm.trans hb)
        subst hbb
        exact ⟨none, by simp [readPartBytes, hent, hloc, hurl, hpe]⟩
      | none =>
        have hpe := (fetchPeers_eq hash (some en.sha256) env.peers).2 hfp
        have h1 : (readPartBytes hash env).1 = .error .partNotFound := by
          simp [readPartBytes, hent, hloc, hurl, hpe]
        rw [h1] at hb
        cases hb
  | none =>
    cases hurl : env.metaArchiveUrl with
    | some url =>
      cases har : archiveBytes hash env none with
      | some b2 =>
        obtain ⟨hfe, _⟩ := (fetchArchive_eq hash env none url).1 b2 har
        have h1 : (readPartBytes hash env).1 = .ok b2 := by
          simp [readPartBytes, hent, hurl, hfe]
        have hbb : b2 = b := Except.ok.inj (h1.symm.trans hb)
        subst hbb
        exact ⟨some url, by simp [readPartBytes, hent, hurl, hfe]⟩
      | none =>
        obtain ⟨e, hfe⟩ := (fetchArchive_eq hash env none url).2 har
        cases hfp : firstPeerBytes hash none env.peers with
        | some b2 =>
          obtain ⟨hpe, _⟩ := (fetchPeers_eq hash none env.peers).1 b2 hfp
          have h1 : (readPartBytes hash env).1 = .ok b2 := by
            simp [readPartBytes, hent, hurl, hfe, hpe]
          have hbb : b2 = b := Except.ok.inj (h1.symm.trans hb)
          subst hbb
          exact ⟨none, by simp [readPartBytes, hent, hurl, hfe, hpe]⟩
        | none =>
          have hpe := (fetchPeers_eq hash none env.peers).2 hfp
          have h1 : (readPartBytes hash env).1 = .error .partNotFound := by
            simp [readPartBytes, hent, hurl, hfe, hpe]
          rw [h1] at hb
          cases hb
    | none =>
      cases hfp : firstPeerBytes hash none env.peers with
      | some b2 =>
        obtain ⟨hpe, _⟩ := (fetchPeers_eq hash none env.peers).1 b2 hfp
        have h1 : (readPartBytes hash env).1 = .ok b2 := by
          simp [readPartBytes, hent, hurl, hpe]
        have hbb : b2 = b := Except.ok.inj (h1.symm.trans hb)
        subst hbb
        exact ⟨none, by simp [readPartBytes, hent, hurl, hpe]⟩
      | none =>
        have hpe := (fetchPeers_eq hash none env.peers).2 hfp
        have h1 : (readPartBytes hash env).1 = .error .partNotFound := by
          simp [readPartBytes, hent, hurl, hpe]
        rw [h1] at hb
        cases hb

/-! ## C6 -/

/-- C6: `read_part_bytes` refines the spec-side ordered source scan — local
entry/file first, then a ranged archive fetch when a URL is known, then each
peer in turn (by sha when a sha is known, else by index) — returning the first
success and failing with `PartNotFound` iff every source fails; on success,
either the bytes came from the local source (an entry whose local read
returned them, with no store action) or they were stored and indexed locally
under their computed digest. -/
theorem readPartBytes_source_order (hash : List Nat → String) (env : ReadPartEnv) :
    ((readPartBytes hash env).1 =
      match firstSourceBytes hash env (candidateSources env) with
      | some b => .ok b
      | none => .error .partNotFound)
    ∧ ∀ b, (readPartBytes hash env).1 = .ok b →
        ((∃ en, env.entry = some en) ∧ env.localResult = some b
          ∧ (readPartBytes hash env).2 = [])
        ∨ ∃ u, (readPartBytes hash env).2 =
            [Action.putPart (hash b) b, Action.upsertEntry (hash b) b.length u] := by
  constructor
  · cases hent : env.entry with
    | some en =>
      have hexp : expectedShaOf env = some en.sha256 := by simp [expectedShaOf, hent]
      have hchosen : chosenArchiveUrl env = en.archiveUrl.or env.metaArchiveUrl := by
        simp [chosenArchiveUrl, hent]
      cases hloc : env.localResult with
      | some bytes =>
        simp [readPartBytes, hent, hloc, candidateSources, firstSourceBytes, sourceBytes]
      | none =>
        cases hurl : en.archiveUrl.or env.metaArchiveUrl with
        | some url =>
          cases har : archiveBytes hash env (some en.sha256) with
          | some b2 =>
            obtain ⟨hfe, _⟩ := (fetchArchive_eq hash env (some en.sha256) url).1 b2 har
            simp [readPartBytes, hent, hloc, hurl, hfe, candidateSources, firstSourceBytes,
              sourceBytes, hchosen, hexp, har]
          | none =>
            obtain ⟨e, hfe⟩ := (fetchArchive_eq hash env (some en.sha256) url).2 har
            cases hfp : firstPeerBytes hash (some en.sha256) env.peers with
            | some b2 =>
              obtain ⟨hpe, _⟩ := (fetchPeers_eq hash (some en.sha256) env.peers).1 b2 hfp
              simp [readPartBytes, hent, hloc, hurl, hfe, hpe, candidateSources,
                firstSourceBytes, sourceBytes, hchosen, hexp, har,
                firstSourceBytes_map_peer, hfp]
            | none =>
              have hpe := (fetchPeers_eq hash (some en.sha256) env.peers).2 hfp
              simp [readPartBytes, hent, hloc, hurl, hfe, hpe, candidateSources,
                firstSourceBytes, sourceBytes, hchosen, hexp, har,
                firstSourceBytes_map_peer, hfp]
        | none =>
          cases hfp : firstPeerBytes hash (some en.sha256) env.peers with
          | some b2 =>
            obtain ⟨hpe, _⟩ := (fetchPeers_eq hash (some en.sha256) env.peers).1 b2 hfp
            simp [readPartBytes, hent, hloc, hurl, hpe, candidateSources, firstSourceBytes,
              sourceBytes, hchosen, hexp, firstSourceBytes_map_peer, hfp]
          | none =>
            have hpe := (fetchPeers_eq hash (some en.sha256) env.peers).2 hfp
            simp [readPartBytes, hent, hloc, hurl, hpe, candidateSources, firstSourceBytes,
              sourceBytes, hchosen, hexp, firstSourceBytes_map_peer, hfp]
    | none =>
      have hexp : expectedShaOf env = none := by simp [expectedShaOf, hent]
      have hchosen : chosenArchiveUrl env = env.metaArchiveUrl := by
        simp [chosenArchiveUrl, hent]
      cases hurl : env.metaArchiveUrl with
      | some url =>
        cases har : archiveBytes hash env none with
        | some b2 =>
          obtain ⟨hfe, _⟩ := (fetchArchive_eq hash env none url).1 b2 har
          simp [readPartBytes, hent, hurl, hfe, candidateSources, firstSourceBytes,
            sourceBytes, hchosen, hexp, har]
        | none =>
          obtain ⟨e, hfe⟩ := (fetchArchive_eq hash env none url).2 har
          cases hfp : firstPeerBytes hash none env.peers with
          | some b2 =>
            obtain ⟨hpe, _⟩ := (fetchPeers_eq hash none env.peers).1 b2 hfp
            simp [readPartBytes, hent, hurl, hfe, hpe, candidateSources, firstSourceBytes,
              sourceBytes, hchosen, hexp, har, firstSourceBytes_map_peer, hfp]
          | none =>
            have hpe := (fetchPeers_eq hash none env.peers).2 hfp
            simp [readPartBytes, hent, hurl, hfe, hpe, candidateSources, firstSourceBytes,
              sourceBytes, hchosen, hexp, har, firstSourceBytes_map_peer, hfp]
      | none =>
        cases hfp : firstPeerBytes hash none env.peers with
        | some b2 =>
          obtain ⟨hpe, _⟩ := (fetchPeers_eq hash none env.peers).1 b2 hfp
          simp [readPartBytes, hent, hurl, hpe, candidateSources, firstSourceBytes,
            sourceBytes, hchosen, hexp, firstSourceBytes_map_peer, hfp]
        | none =>
          have hpe := (fetchPeers_eq hash none env.peers).2 hfp
          simp [readPartBytes, hent, hurl, hpe, candidateSources, firstSourceBytes,
            sourceBytes, hchosen, hexp, firstSourceBytes_map_peer, hfp]
  · intro b hb
    cases hent : env.entry with
    | some en =>
      cases hloc : env.localResult with
      | some bytes =>
        have hres : readPartBytes hash env = (.ok bytes, []) := by
          simp [readPartBytes, hent, hloc]
        rw [hres] at hb
        have hbb : bytes = b := Except.ok.inj hb
        subst hbb
        exact Or.inl ⟨⟨en, rfl⟩, rfl, by rw [hres]⟩
      | none => exact Or.inr (readPartBytes_ok_store hash env b hb (Or.inr hloc))
    | none => exact Or.inr (readPartBytes_ok_store hash env b hb (Or.inl hent))

/-- Witness for C6 at the concrete environment: the read succeeds with the
second peer's bytes — the local read failed — so they are stored and indexed
locally. -/
theorem readPartBytes_source_order_witness :
    ((∃ en, envW.entry = some en) ∧ envW.localResult = some [1]
      ∧ (readPartBytes hashW envW).2 = [])
    ∨ ∃ u, (readPartBytes hashW envW).2 =
        [Action.putPart (hashW [1]) [1], Action.upsertEntry (hashW [1]) 1 u] :=
  (readPartBytes_source_order hashW envW).2 [1] rfl

/-! ## C8 -/

/-- C8: bytes that fail verification against a previously known sha leave
local state unchanged and the next source is tried: with a local entry, every
stored payload carries the entry's sha as its computed digest; an archive
attempt that fails with a hash mismatch hands over to the peers untouched; a
peer whose payload digest differs from the expected sha is skipped with no
store action. -/
theorem hashMismatch_preserves_state (hash : List Nat → String) (env : ReadPartEnv)
    (en : PartEntryE) (hent : env.entry = some en) :
    (∀ sha b, Action.putPart sha b ∈ (readPartBytes hash env).2 →
      sha = en.sha256 ∧ hash b = en.sha256)
    ∧ (∀ url, env.localResult = none → chosenArchiveUrl env = some url →
        (fetchPartFromArchiveAndStore hash env (some en.sha256) url).1 = .error .hashMismatch →
        readPartBytes hash env = fetchPartFromPeersAndStore hash env.peers (some en.sha256))
    ∧ (∀ p rest x pl, p.byShaResult = some pl → hash pl.bytes ≠ x →
        fetchPartFromPeersAndStore hash (p :: rest) (some x) =
          fetchPartFromPeersAndStore hash rest (some x)) := by
  have hexp : expectedShaOf env = some en.sha256 := by simp [expectedShaOf, hent]
  refine ⟨?_, ?_, ?_⟩
  · intro sha b hmem
    rcases readPartBytes_cases hash env with htr | ⟨b2, u, _, h2, h3⟩
    · rw [htr] at hmem
      cases hmem
    · rw [h2] at hmem
      have hsha := h3 en.sha256 hexp
      rcases List.mem_cons.mp hmem with heq | hmem2
      · obtain ⟨h4, h5⟩ := Action.putPart.inj heq.symm
        constructor
        · rw [← h4, hsha]
        · rw [← h5, hsha]
      · rcases List.mem_cons.mp hmem2 with heq | hmem3
        · cases heq
        · cases hmem3
  · intro url hloc hurl hmis
    have hurl2 : en.archiveUrl.or env.metaArchiveUrl = some url := by
      rw [← hurl]
      simp [chosenArchiveUrl, hent]
    have har : archiveBytes hash env (some en.sha256) = none := by
      cases har2 : archiveBytes hash env (some en.sha256) with
      | none => rfl
      | some b2 =>
        obtain ⟨hfe, _⟩ := (fetchArchive_eq hash env (some en.sha256) url).1 b2 har2
        rw [hfe] at hmis
        cases hmis
    obtain ⟨e, hfe⟩ := (fetchArchive_eq hash env (some en.sha256) url).2 har
    simp [readPartBytes, hent, hloc, hurl2, hfe]
  · intro p rest x pl hpay hx
    rw [fetchPartFromPeersAndStore]
    dsimp only
    rw [hpay]
    have hskip : (resolvePartSha256 hash pl.headerSha pl.bytes (some x) != x) = true := by
      simp [resolvePartSha256_eq_hash, hx]
    simp [hskip]

/-- Witness for C8 at the concrete environment: the mismatching archive and
first peer leave no trace, the matching second peer's bytes are stored under
the entry's sha. -/
theorem hashMismatch_preserves_state_witness :
    (hashW [1] = enW.sha256 ∧ hashW [1] = enW.sha256)
    ∧ readPartBytes hashW envW =
        fetchPartFromPeersAndStore hashW envW.peers (some enW.sha256) :=
  ⟨((hashMismatch_preserves_state hashW envW enW rfl).1 (hashW [1]) [1] (by decide)),
   ((hashMismatch_preserves_state hashW envW enW rfl).2.1 "u" rfl rfl rfl)⟩

/-! ## C10 -/

/-- C10: `resolve_part_sha256` returns exactly the digest computed over the
body — a header-advertised or expected sha is echoed back only when it already
equals that digest — and consequently `read_part_bytes` only ever upserts a
part entry whose sha is the digest of the bytes it stored. -/
theorem resolvePartSha256_returns_digest :
    (∀ (hash : List Nat → String) (headerSha : Option String) (body : List Nat)
        (expected : Option String),
      resolvePartSha256 hash headerSha body expected = hash body)
    ∧ ∀ (hash : List Nat → String) (env : ReadPartEnv),
        (readPartBytes hash env).2 = []
        ∨ ∃ b u, (readPartBytes hash env).2 =
            [Action.putPart (hash b) b, Action.upsertEntry (hash b) b.length u] := by
  constructor
  · exact resolvePartSha256_eq_hash
  · intro hash env
    rcases readPartBytes_cases hash env with htr | ⟨b, u, _, h2, _⟩
    · left
      exact htr
    · right
      exact ⟨b, u, h2⟩

/-! ## C5: body assembly -/

/-- The expected part lengths of a blob sum to its size. -/
theorem sum_partLen (ps : Nat) (hps : 1 ≤ ps) :
    ∀ size, ((List.range (partCount size ps)).map (partLen size ps)).sum = size := by
  intro size
  induction size using Nat.strong_induction_on with
  | _ size ih =>
    by_cases h0 : size = 0
    · subst h0
      have hc : partCount 0 ps = 0 := by
        unfold partCount
        exact Nat.div_eq_of_lt (by omega)
      simp [hc]
    · by_cases hle : size ≤ ps
      · have hc : partCount size ps = 1 := by
          unfold partCount
          have he2 : size + ps - 1 = (size - 1) + ps := by omega
          rw [he2, Nat.add_div_right _ (by omega : 0 < ps),
            Nat.div_eq_of_lt (by omega : size - 1 < ps)]
        rw [hc]
        have hr1 : List.range 1 = [0] := rfl
        rw [hr1]
        simp [partLen]
        omega
      · have hgt : ps < size := by omega
        have hc : partCount size ps = partCount (size - ps) ps + 1 := by
          unfold partCount
          have he : size + ps - 1 = (size - ps + ps - 1) + ps := by omega
          rw [he, Nat.add_div_right _ (by omega : 0 < ps)]
        rw [hc, List.range_succ_eq_map]
        simp only [List.map_cons, List.map_map, List.sum_cons]
        have h0p : partLen size ps 0 = ps := by
          simp [partLen]
          omega
        have hstep : (List.range (partCount (size - ps) ps)).map (partLen size ps ∘ Nat.succ)
            = (List.range (partCount (size - ps) ps)).map (partLen (size - ps) ps) := by
          apply List.map_congr_left
          intro i _
          simp only [Function.comp_apply, partLen, Nat.succ_eq_add_one, Nat.succ_mul]
          have heq : size - (i * ps + ps) = size - ps - i * ps := by omega
          rw [heq]
        rw [h0p, hstep, ih (size - ps) (by omega)]
        omega

/-- The reconstructed blob has exactly `size_bytes` bytes when every part has
its expected length. -/
theorem fullBody_length (size ps : Nat) (hps : 1 ≤ ps) (parts : Nat → List Nat)
    (hlen : ∀ i < partCount size ps, (parts i).length = partLen size ps i) :
    (fullBody size ps parts).length = size := by
  unfold fullBody
  rw [List.length_flatten, List.map_map]
  have hmap : (List.range (partCount size ps)).map (List.length ∘ parts)
      = (List.range (partCount size ps)).map (partLen size ps) := by
    apply List.map_congr_left
    intro i hi
    exact hlen i (List.mem_range.mp hi)
  rw [hmap, sum_partLen ps hps size]

/-- Dropping `i` full-size parts from the blob leaves the flattened suffix of
parts from index `i` on. -/
theorem fullBody_drop (size ps : Nat) (parts : Nat → List Nat) :
    ∀ i, i ≤ partCount size ps → (∀ j < i, (parts j).length = ps) →
      (fullBody size ps parts).drop (i * ps) =
        ((List.range' i (partCount size ps - i)).map parts).flatten := by
  intro i
  induction i with
  | zero =>
    intro _ _
    simp [fullBody, List.range_eq_range']
  | succ i ih =>
    intro hic hall
    have hi : i < partCount size ps := by omega
    have hdrop := ih (by omega) (fun j hj => hall j (by omega))
    have hsplit : List.range' i (partCount size ps - i) =
        i :: List.range' (i + 1) (partCount size ps - (i + 1)) := by
      have hn : partCount size ps - i = (partCount size ps - (i + 1)) + 1 := by omega
      rw [hn, List.range'_succ]
    have hstep : (fullBody size ps parts).drop ((i + 1) * ps) =
        ((fullBody size ps parts).drop (i * ps)).drop ps := by
      rw [List.drop_drop, Nat.succ_mul]
    rw [hstep, hdrop, hsplit]
    simp only [List.map_cons, List.flatten_cons]
    rw [← hall i (by omega)]
    exact List.drop_left _ _

/-- Part `i` of the blob read back from the reconstruction. -/
theorem fullBody_part (size ps : Nat) (parts : Nat → List Nat) (i : Nat)
    (hic : i < partCount size ps) (hall : ∀ j < i, (parts j).length = ps) :
    ((fullBody size ps parts).drop (i * ps)).take (parts i).length = parts i := by
  rw [fullBody_drop size ps parts i (by omega) hall]
  have hsplit : List.range' i (partCount size ps - i) =
      i :: List.range' (i + 1) (partCount size ps - (i + 1)) := by
    have hn : partCount size ps - i = (partCount size ps - (i + 1)) + 1 := by omega
    rw [hn, List.range'_succ]
  rw [hsplit]
  simp only [List.map_cons, List.flatten_cons]
  exact List.take_left _ _

/-- Main induction for the assembly loop: from part `j` on, the loop yields
exactly the bytes of the reconstruction from position `max (j * ps) s` through
`e`. -/
theorem assembleFrom_ok (size ps s e : Nat) (parts : Nat → List Nat)
    (hps : 1 ≤ ps) (hse : s ≤ e) (hes : e < size)
    (hlen : ∀ i < partCount size ps, (parts i).length = partLen size ps i) :
    ∀ k j, j + k = e / ps + 1 → s / ps ≤ j →
      assembleFrom ps s e (s / ps) (e / ps) parts j k =
        .ok (((fullBody size ps parts).drop (max (j * ps) s)).take
              (e + 1 - max (j * ps) s)) := by
  have hsize1 : 1 ≤ size := by omega
  have hlastc : e / ps < partCount size ps := by
    have h1 : e / ps ≤ (size - 1) / ps := Nat.div_le_div_right (by omega)
    have h2 : partCount size ps = (size - 1) / ps + 1 := by
      unfold partCount
      have he2 : size + ps - 1 = (size - 1) + ps := by omega
      rw [he2, Nat.add_div_right _ (by omega : 0 < ps)]
    omega
  have hfs : (s / ps) * ps ≤ s := Nat.div_mul_le_self s ps
  have hs_lt : s < (s / ps) * ps + ps := by
    have h1 := Nat.div_add_mod s ps
    rw [Nat.mul_comm] at h1
    have h2 := Nat.mod_lt s (by omega : 0 < ps)
    omega
  have hel : (e / ps) * ps ≤ e := Nat.div_mul_le_self e ps
  have he_lt : e < (e / ps) * ps + ps := by
    have h1 := Nat.div_add_mod e ps
    rw [Nat.mul_comm] at h1
    have h2 := Nat.mod_lt e (by omega : 0 < ps)
    omega
  have hps_of_lt : ∀ j, j < e / ps → partLen size ps j = ps := by
    intro j hj
    have h1 : (j + 1) * ps ≤ (e / ps) * ps := Nat.mul_le_mul_right ps (by omega)
    have h2 : (j + 1) * ps = j * ps + ps := Nat.succ_mul j ps
    have h3 : j * ps + ps ≤ e := by omega
    simp only [partLen]
    omega
  have hallps : ∀ j < e / ps, (parts j).length = ps := by
    intro j hj
    rw [hlen j (by omega), hps_of_lt j hj]
  intro k
  induction k with
  | zero =>
    intro j hj _
    have hj2 : j = e / ps + 1 := by omega
    subst hj2
    have hjps : (e / ps + 1) * ps = (e / ps) * ps + ps := Nat.succ_mul _ ps
    have hmax : max ((e / ps + 1) * ps) s = (e / ps + 1) * ps := by omega
    have htake : e + 1 - max ((e / ps + 1) * ps) s = 0 := by omega
    rw [hmax] at htake
    simp [assembleFrom, hmax, htake]
  | succ k ih =>
    intro j hj hfirst
    have hjlast : j ≤ e / ps := by omega
    have hjc : j < partCount size ps := by omega
    have hL : (parts j).length = partLen size ps j := hlen j hjc
    have hjle : j * ps ≤ (e / ps) * ps := Nat.mul_le_mul_right ps hjlast
    have hfj : (s / ps) * ps ≤ j * ps := Nat.mul_le_mul_right ps hfirst
    have hjpse : j * ps ≤ e := le_trans hjle hel
    have hjp1 : (j + 1) * ps = j * ps + ps := Nat.succ_mul j ps
    have hsps : (s / ps + 1) * ps = (s / ps) * ps + ps := Nat.succ_mul _ ps
    have hrec := ih (j + 1) (by omega) (by omega)
    have hm2 : max ((j + 1) * ps) s = (j + 1) * ps := by
      have h1 : (s / ps + 1) * ps ≤ (j + 1) * ps := Nat.mul_le_mul_right ps (by omega)
      omega
    rw [hm2] at hrec
    -- Characterize the two slice bounds.
    obtain ⟨av, hav, hmaxa, hav_ps, hje, hachar⟩ :
        ∃ av, (if j = s / ps then s - j * ps else 0) = av
          ∧ j * ps + av = max (j * ps) s ∧ av ≤ ps
          ∧ j * ps + av ≤ e + 1
          ∧ ((j = s / ps ∧ av = s - j * ps) ∨ (j ≠ s / ps ∧ av = 0)) := by
      by_cases hjf : j = s / ps
      · refine ⟨s - j * ps, if_pos hjf, ?_, ?_, ?_, Or.inl ⟨hjf, rfl⟩⟩
        · subst hjf
          omega
        · subst hjf
          omega
        · subst hjf
          have h1 := hfs
          have h2 := hse
          revert h1 h2
          generalize (s / ps) * ps = A
          intro h1 h2
          omega
      · have h1 : (s / ps + 1) * ps ≤ j * ps := Nat.mul_le_mul_right ps (by omega)
        refine ⟨0, if_neg hjf, by omega, by omega, ?_, Or.inr ⟨hjf, rfl⟩⟩
        have h2 := hjpse
        revert h2
        generalize j * ps = A
        intro h2
        omega
    obtain ⟨bv, hbv, hb_le, hbchar⟩ :
        ∃ bv, (if j = e / ps then (e - j * ps) + 1 else (parts j).length) = bv
          ∧ bv ≤ (parts j).length
          ∧ ((j = e / ps ∧ bv = e - j * ps + 1) ∨ (j ≠ e / ps ∧ bv = ps)) := by
      by_cases hjl : j = e / ps
      · refine ⟨e - j * ps + 1, if_pos hjl, ?_, Or.inl ⟨hjl, rfl⟩⟩
        rw [hL]
        subst hjl
        simp only [partLen]
        omega
      · have hplen : (parts j).length = ps := hallps j (lt_of_le_of_ne hjlast hjl)
        exact ⟨(parts j).length, if_neg hjl, le_refl _, Or.inr ⟨hjl, hplen⟩⟩
    have hab : av ≤ bv := by
      rcases hachar with ⟨hjf, haeq⟩ | ⟨hjf, haeq⟩
      · rcases hbchar with ⟨hjl, hbeq⟩ | ⟨hjl, hbeq⟩
        · rw [haeq, hbeq]
          omega
        · rw [haeq, hbeq]
          have hjps : j * ps = (s / ps) * ps := by rw [hjf]
          omega
      · rw [haeq]
        omega
    have hguard : ¬(av > bv ∨ bv > (parts j).length) := by omega
    rw [assembleFrom]
    simp only [hav, hbv, hrec]
    rw [if_neg hguard]
    -- Rewrite the slice of part j as a slice of the full body.
    have hallj : ∀ i < j, (parts i).length = ps := fun i hi => hallps i (by omega)
    have hpart := fullBody_part size ps parts j hjc hallj
    have hslice : ((parts j).drop av).take (bv - av) =
        ((fullBody size ps parts).drop (j * ps + av)).take (bv - av) := by
      conv_lhs => rw [← hpart]
      rw [List.drop_take, List.take_take, List.drop_drop]
      congr 1
      omega
    rw [hslice]
    rcases hbchar with ⟨hjl, hbeq⟩ | ⟨hjl, hbeq⟩
    · -- Final part: the recursive suffix is empty.
      have hjps_eq : j * ps = (e / ps) * ps := by rw [hjl]
      have hkz : e + 1 - (j + 1) * ps = 0 := by omega
      have hargs : e + 1 - (j * ps + av) = bv - av := by
        rw [hbeq]
        have h1 := hjpse
        have h2 := hje
        revert h1 h2
        generalize j * ps = A
        intro h1 h2
        omega
      rw [hkz]
      simp only [List.take_zero, List.append_nil]
      rw [← hmaxa, hargs]
    · -- Inner or first part: glue the slice to the suffix.
      have hj1e : (j + 1) * ps ≤ e + 1 := by
        have h1 : (j + 1) * ps ≤ (e / ps) * ps :=
          Nat.mul_le_mul_right ps (by omega)
        omega
      have hidx : (j + 1) * ps = (j * ps + av) + (bv - av) := by
        rw [hbeq]
        have h1 := hav_ps
        have h2 := hjp1
        revert h2
        generalize j * ps = A
        intro h2
        omega
      have hdd : (fullBody size ps parts).drop ((j + 1) * ps) =
          ((fullBody size ps parts).drop (j * ps + av)).drop (bv - av) := by
        rw [List.drop_drop, ← hidx]
      have hargs : e + 1 - (j * ps + av) = (bv - av) + (e + 1 - (j + 1) * ps) := by
        rw [hbeq]
        have h1 := hav_ps
        have h2 := hj1e
        have h3 := hjp1
        revert h2 h3
        generalize j * ps = A
        intro h2 h3
        omega
      rw [hdd, ← List.take_add, ← hmaxa, hargs]

/-- C5: for every valid requested range `[s, e]` with
`0 ≤ s ≤ e < size_bytes`, when every resolved part has its expected length the
assembled body is exactly bytes `s ..= e` of the full blob, and its length is
`e - s + 1`. -/
theorem assembleBody_spec (size ps s e : Nat) (parts : Nat → List Nat)
    (hps : 1 ≤ ps) (hse : s ≤ e) (hes : e < size)
    (hlen : ∀ i < partCount size ps, (parts i).length = partLen size ps i) :
    assembleBody ps s e parts =
      .ok (((fullBody size ps parts).drop s).take (e - s + 1))
    ∧ ∀ l, assembleBody ps s e parts = .ok l → l.length = e - s + 1 := by
  have hmax : max ps 1 = ps := by omega
  have hfl : s / ps ≤ e / ps := Nat.div_le_div_right hse
  have hfs : (s / ps) * ps ≤ s := Nat.div_mul_le_self s ps
  have hmain := assembleFrom_ok size ps s e parts hps hse hes hlen
    (e / ps - s / ps + 1) (s / ps) (by omega) (le_refl _)
  have hms : max ((s / ps) * ps) s = s := by
    have h1 := hfs
    revert h1
    generalize (s / ps) * ps = A
    intro h1
    omega
  rw [hms] at hmain
  have hres : assembleBody ps s e parts =
      .ok (((fullBody size ps parts).drop s).take (e - s + 1)) := by
    unfold assembleBody
    rw [hmax]
    have hts : e + 1 - s = e - s + 1 := by omega
    rw [hmain, hts]
  refine ⟨hres, ?_⟩
  intro l hl
  rw [hres] at hl
  cases hl
  rw [List.length_take, List.length_drop, fullBody_length size ps hps parts hlen]
  omega

/-- Witness for C5: a 9-byte blob in parts of 4, range `[3, 6]`. -/
theorem assembleBody_spec_witness :
    assembleBody 4 3 6
        (fun i => if i = 0 then [0, 1, 2, 3] else if i = 1 then [4, 5, 6, 7]
          else if i = 2 then [8] else [])
      = .ok [3, 4, 5, 6] := by
  have h := (assembleBody_spec 9 4 3 6
    (fun i => if i = 0 then [0, 1, 2, 3] else if i = 1 then [4, 5, 6, 7]
      else if i = 2 then [8] else [])
    (by decide) (by decide) (by decide) (by decide)).1
  rw [h]
  rfl

/-! ## C7 -/

/-- C7 (amended): when the digest computed over the supplied bytes differs
from the supplied `sha256`, `run_put` fails with the `InvalidRequest` error
kind — not `HashMismatch` — and stores nothing. -/
theorem runPut_mismatch_invalidRequest (hash : List Nat → String)
    (partAlreadyStored : Bool) (req : InternalPutPartRequest)
    (h : hash req.body ≠ req.sha256) :
    runPut hash partAlreadyStored req = (.error .invalidRequest, []) := by
  unfold runPut
  rw [if_pos h]

/-- Witness for the amended C7 theorem at a concrete mismatching request. -/
theorem runPut_mismatch_invalidRequest_witness :
    runPut hashW false
        { path := "p", sha256 := "zz", body := [2], offset := 0, length := none }
      = (.error .invalidRequest, []) :=
  runPut_mismatch_invalidRequest hashW false
    { path := "p", sha256 := "zz", body := [2], offset := 0, length := none }
    (by decide)

/-- C7 counterexample: at a concrete request whose computed digest differs
from the supplied sha, `run_put` fails — storing nothing — but with the
`InvalidRequest` kind, which is not the `HashMismatch` kind the claim
states. -/
theorem runPut_mismatch_not_hashMismatch :
    hashW [2] ≠ "zz"
    ∧ runPut hashW false
        { path := "p", sha256 := "zz", body := [2], offset := 0, length := none }
      = (.error .invalidRequest, [])
    ∧ AmbErr.invalidRequest ≠ AmbErr.hashMismatch :=
  ⟨by decide, rfl, by decide⟩

end Amber
